import Mathlib

/-!
# Verification of `py-import-cycles` (`project/main.py`)

A shallow embedding of the import-cycle analysis tool in `project/main.py`,
together with theorems settling the specification claims.

Modelling conventions:

* A Python dotted module name `"a.b.c"` is modelled as its segment list
  `["a", "b", "c"]` (`MName`).  `str.split(".")` / `".".join` are then the
  identity, and Python's lexicographic comparison of dotted-name strings
  agrees with segment-list lexicographic comparison because the separator
  `.` sorts below every identifier character.
* The filesystem under the project root is modelled by two Boolean
  predicates on project-relative path segment lists (`FS`): whether
  `<root>/<p>.py` exists as a file and whether `<root>/<p>` is a directory.
  All filesystem queries of the source go through
  `project_path.joinpath(...)`, so the project-relative view is faithful.
* `ImportContext` (a tuple of AST nodes used only as an opaque label) is
  modelled as `List Nat`.
* The stdlib/builtin classification `_is_builtin_or_stdlib` (a host lookup)
  is an injected predicate parameter `isStd`, per the spec's design note.
* `logger.debug` calls are side effects with no influence on results and
  are dropped; branches that only log are kept as separate branches.
-/

/-- A dotted module name, as its list of segments. -/
abbrev MName := List String

/-- Opaque import-context markers (`ImportContext` in the source). -/
abbrev Ctx := List Nat

/-- The filesystem below the project root: `pyFile p` models
`project_path.joinpath(*p).with_suffix(".py").exists()` and `dir p` models
`project_path.joinpath(*p).is_dir()`. -/
structure FS where
  pyFile : List String → Bool
  dir : List String → Bool

/-- `ModulePathAndName` from the source: the (mapping-adjusted) path parts
and the (unadjusted) dotted module name. -/
structure ModulePathAndName where
  path : List String
  name : MName
deriving DecidableEq

/-- The mapping loop of `ModulePathAndName.make`: for the first
`(key, value)` pair whose `value` occurs among the parts, prepend `key`. -/
def applyMapping : List (String × String) → List String → List String
  | [], parts => parts
  | (key, value) :: rest, parts =>
    if value ∈ parts then key :: parts else applyMapping rest parts

/-- `ModulePathAndName.make`: split the module name into parts, apply the
mapping, and pair the adjusted path with the original name. -/
def ModulePathAndName.make (mapping : List (String × String)) (moduleName : MName) :
    ModulePathAndName :=
  { path := applyMapping mapping moduleName, name := moduleName }

/-- `ModulePathAndName.py_exists`. -/
def ModulePathAndName.pyExists (fs : FS) (m : ModulePathAndName) : Bool :=
  fs.pyFile m.path

/-- `ModulePathAndName.init_exists`. -/
def ModulePathAndName.initExists (fs : FS) (m : ModulePathAndName) : Bool :=
  fs.dir m.path && fs.pyFile (m.path ++ ["__init__"])

/-- The dedup-append pattern `if name not in acc: acc.append(name)` used in
both import resolvers. -/
def addUnique (acc : List MName) (a : MName) : List MName :=
  if a ∈ acc then acc else acc ++ [a]

/-- The alias loop of `ImportSTMT.get_imported_module_names`; `acc` is the
`imported_module_names` accumulator. -/
def importGetNamesAux (fs : FS) (mapping : List (String × String))
    (isStd : MName → Bool) : List MName → List MName → List MName
  | [], acc => acc
  | alias_ :: rest, acc =>
    if isStd alias_ then importGetNamesAux fs mapping isStd rest acc
    else
      let m := ModulePathAndName.make mapping alias_
      if m.pyExists fs then importGetNamesAux fs mapping isStd rest (addUnique acc m.name)
      else if m.initExists fs then
        -- logged: "Import: Unhandled ...__init__"
        importGetNamesAux fs mapping isStd rest acc
      else
        -- logged: "Import: Unhandled ..."
        importGetNamesAux fs mapping isStd rest acc

/-- `ImportSTMT.get_imported_module_names` (the `base_module_name` argument
is only used for logging in the source). -/
def importGetNames (fs : FS) (mapping : List (String × String))
    (isStd : MName → Bool) (baseModuleName : MName) (aliases : List MName) : List MName :=
  importGetNamesAux fs mapping isStd aliases []

/-- The alias loop of the package branch of
`ImportFromSTMT.get_imported_module_names`. -/
def importFromPackageAux (fs : FS) (mapping : List (String × String))
    (packageName : MName) : List String → List MName → List MName
  | [], acc => acc
  | alias_ :: rest, acc =>
    let sub := ModulePathAndName.make mapping (packageName ++ [alias_])
    if sub.pyExists fs then importFromPackageAux fs mapping packageName rest (addUnique acc sub.name)
    else
      -- logged: "ImportFrom: Unhandled ..."
      importFromPackageAux fs mapping packageName rest acc

/-- `ImportFromSTMT.get_imported_module_names`.  `module? = none` models a
falsy `self.node.module` (e.g. `from . import x`); `level` is the relative
level; `names` are the imported alias names. -/
def importFromGetNames (fs : FS) (mapping : List (String × String))
    (isStd : MName → Bool) (baseModuleName : MName)
    (module? : Option MName) (level : Nat) (names : List String) : List MName :=
  match module? with
  | none => []
  | some module =>
    if isStd module then []
    else
      -- base_module_name.split(".")[: -level] is the first (len - level) segments
      let moduleName :=
        if level = 0 then module
        else baseModuleName.take (baseModuleName.length - level) ++ module
      let m := ModulePathAndName.make mapping moduleName
      if m.pyExists fs then [m.name]
      else if m.initExists fs then
        -- logged: "ImportFrom: Unhandled ...__init__"
        []
      else if fs.dir m.path then
        importFromPackageAux fs mapping m.name names []
      else
        -- logged: "ImportFrom: Unhandled ..."
        []

/-- The mapping loop of `_get_module_name_from_path`: for the first
`(key, value)` pair with `key == parts[0]` and `value in parts[1:]`,
drop the leading part. -/
def stripMapping : List (String × String) → List String → List String
  | [], parts => parts
  | (key, value) :: rest, parts =>
    if parts.head? = some key ∧ value ∈ parts.drop 1 then parts.drop 1
    else stripMapping rest parts

/-- `_get_module_name_from_path`.  The path of the source file relative to
the project root is modelled as directory segments `dirs`, a file stem
`stem` and an extension `ext`; `with_suffix("")` drops `ext`, so
`parts = dirs ++ [stem]`. -/
def getModuleNameFromPath (mapping : List (String × String))
    (dirs : List String) (stem : String) (ext : String) : MName :=
  stripMapping mapping (dirs ++ [stem])

/-! ## Python comparison of strings, tuples and lists

Python's `sorted` and tuple/list comparison use the strict order `<`
elementwise.  `ltList lt` is Python's list/tuple comparison lifted over an
elementwise strict order, and `leOf lt a b = !(lt b a)` is the
"not greater" comparator handed to the stable `insertionSortB` to model
the stable `sorted`. -/

/-- Python lexicographic `<` on lists/tuples over an elementwise `<`. -/
def ltList (lt : α → α → Bool) : List α → List α → Bool
  | [], [] => false
  | [], _ :: _ => true
  | _ :: _, [] => false
  | a :: as, b :: bs => if lt a b then true else if lt b a then false else ltList lt as bs

/-- Python lexicographic `<` on pairs over componentwise `<`. -/
def ltPair (lta : α → α → Bool) (ltb : β → β → Bool) : α × β → α × β → Bool
  | (a, b), (a', b') => if lta a a' then true else if lta a' a then false else ltb b b'

/-- Strict `<` on characters: Unicode code point order, as in Python. -/
def ltChar (a b : Char) : Bool := a.toNat < b.toNat

/-- Strict `<` on Python strings: lexicographic over code points. -/
def ltStr (a b : String) : Bool := ltList ltChar a.data b.data

/-- The non-strict comparator Python's stable `sorted` induces from a
strict `<`. -/
def leOf (lt : α → α → Bool) (a b : α) : Bool := !(lt b a)

/-- Python `<` on dotted module names (segment lists). -/
def ltName : MName → MName → Bool := ltList ltStr

/-- Insert into a sorted list, before the first element not below `a`
(stable insertion). -/
def orderedInsertB (le : α → α → Bool) (a : α) : List α → List α
  | [] => [a]
  | b :: l => if le a b then a :: b :: l else b :: orderedInsertB le a l

/-- Stable insertion sort; models Python's stable `sorted` (both are the
unique stable sort for a total preorder). -/
def insertionSortB (le : α → α → Bool) : List α → List α
  | [] => []
  | a :: l => orderedInsertB le a (insertionSortB le l)

/-! ## The cycle detector (`DetectImportCycles`) -/

/-- `ImportedModule` from the source. -/
structure ImportedModule where
  moduleName : MName
  context : Ctx
deriving DecidableEq

/-- `ImportsByModule`: the insertion-ordered mapping from a module name to
the modules it imports, as an association list. -/
abbrev Graph := List (MName × List ImportedModule)

/-- `CycleAndChains` from the source. -/
structure CycleAndChains where
  cycle : List MName
  chains : List (List MName)
deriving DecidableEq

/-- The detector's `_cycles` dict: insertion-ordered association list from
the dedup key (sorted member names) to its record. -/
abbrev CycleState := List (List MName × CycleAndChains)

/-- `self._module_imports.get(name, [])`. -/
def lookupD (g : Graph) (a : MName) : List ImportedModule :=
  match g with
  | [] => []
  | (k, l) :: rest => if k = a then l else lookupD rest a

/-- `self._cycles.setdefault(key, CycleAndChains(cycle)).chains.append(chain)`:
find or create the record for `key` (creation stores `cycle` with no
chains), then append `chain` to its chain list. -/
def insertChain : CycleState → List MName → List MName → List MName → CycleState
  | [], key, cycle, chain => [(key, { cycle := cycle, chains := [chain] })]
  | (k, r) :: rest, key, cycle, chain =>
    if k = key then (k, { cycle := r.cycle, chains := r.chains ++ [chain] }) :: rest
    else (k, r) :: insertChain rest key cycle chain

/-- Python's `list.index`: the index of the first occurrence (callers only
use it on members, where Python would not raise `ValueError`). -/
def pyIndexOf (x : MName) : List MName → Nat
  | [] => 0
  | a :: l => if a = x then 0 else pyIndexOf x l + 1

/-- `DetectImportCycles._add_cycle`: take the suffix of the chain from the
first occurrence of its last element, key it by the sorted distinct member
names, and record the chain.  (`chain` is never empty at any call site;
the `none` branch is unreachable.) -/
def addCycle (st : CycleState) (chain : List MName) : CycleState :=
  match chain.getLast? with
  | none => st
  | some lastM =>
    let firstIdx := pyIndexOf lastM chain
    let cycle := chain.drop firstIdx
    insertChain st (insertionSortB (leOf ltName) cycle.dropLast) cycle chain

/-- The edge loop of `DetectImportCycles._detect_cycles`: `descend` is the
recursive call one level deeper.  When a target is already in the base
chain the cycle is recorded and the loop returns (the remaining targets of
this module are not processed); otherwise the search descends and the loop
continues. -/
def detectStep (g : Graph) (descend : List MName → List ImportedModule → CycleState → CycleState)
    (baseChain : List MName) : List ImportedModule → CycleState → CycleState
  | [], st => st
  | mi :: rest, st =>
    if mi.moduleName ∈ baseChain then addCycle st (baseChain ++ [mi.moduleName])
    else
      detectStep g descend baseChain rest
        (descend (baseChain ++ [mi.moduleName]) (lookupD g mi.moduleName) st)

/-- `DetectImportCycles._detect_cycles`, with a fuel parameter standing in
for Python's unbounded recursion.  The recursion depth is bounded by the
number of distinct module names (chains never repeat a name before the
final element), so any fuel of at least that size yields the exact Python
behaviour. -/
def detectAux (g : Graph) : Nat → List MName → List ImportedModule → CycleState → CycleState
  | 0, _, _, st => st
  | fuel + 1, baseChain, moduleImports, st =>
    detectStep g (detectAux g fuel) baseChain moduleImports st

/-- An upper bound on the number of distinct module names in the graph,
plus one: sufficient fuel for `detectAux`. -/
def fuelFor (g : Graph) : Nat :=
  g.foldl (fun n p => n + 1 + p.2.length) 0 + 1

/-- `DetectImportCycles.detect_cycles`: run the DFS from every key of the
adjacency mapping. -/
def detectCycles (g : Graph) : CycleState :=
  g.foldl (fun st p => detectAux g (fuelFor g) [p.1] p.2 st) []

/-- `DetectImportCycles.cycles` composed with `detect_cycles` (the
behaviour of `_find_import_cycles`): the records sorted by their stored
`cycle` field, Python-style. -/
def cyclesOut (g : Graph) : List CycleAndChains :=
  insertionSortB (fun r s => leOf (ltList ltName) r.cycle s.cycle) ((detectCycles g).map (·.2))

/-- The edge loop of the spec's cycle-detection step, following the spec's
words: when a target is already in the current chain the cycle is recorded
and descent stops only along that branch, while the module's remaining
targets are still processed.  Used to compare the specified behaviour with
`detectStep`, which instead returns from the whole loop. -/
def detectStepSpec (g : Graph)
    (descend : List MName → List ImportedModule → CycleState → CycleState)
    (baseChain : List MName) : List ImportedModule → CycleState → CycleState
  | [], st => st
  | mi :: rest, st =>
    if mi.moduleName ∈ baseChain then
      detectStepSpec g descend baseChain rest (addCycle st (baseChain ++ [mi.moduleName]))
    else
      detectStepSpec g descend baseChain rest
        (descend (baseChain ++ [mi.moduleName]) (lookupD g mi.moduleName) st)

/-- The spec's variant of `detectAux` built on `detectStepSpec`. -/
def detectAuxSpec (g : Graph) : Nat → List MName → List ImportedModule → CycleState → CycleState
  | 0, _, _, st => st
  | fuel + 1, baseChain, moduleImports, st =>
    detectStepSpec g (detectAuxSpec g fuel) baseChain moduleImports st

/-- The spec's variant of `detectCycles`. -/
def detectCyclesSpec (g : Graph) : CycleState :=
  g.foldl (fun st p => detectAuxSpec g (fuelFor g) [p.1] p.2 st) []

/-- The spec's variant of `cyclesOut`. -/
def cyclesOutSpec (g : Graph) : List CycleAndChains :=
  insertionSortB (fun r s => leOf (ltList ltName) r.cycle s.cycle) ((detectCyclesSpec g).map (·.2))

/-! ## The edge classifier (`_make_all_edges`, `_make_only_cycles_edges`) -/

/-- `ImportEdge` from the source.  The color is the color string
(`"black"`, `"red"`, or `"#rrggbb"`). -/
structure ImportEdge where
  title : String
  module : MName
  imports : MName
  color : String
  context : Ctx
deriving DecidableEq

/-- Python `<` on `ImportEdge` named tuples: lexicographic over the five
fields. -/
def ltEdge (e f : ImportEdge) : Bool :=
  ltPair ltStr (ltPair ltName (ltPair ltName (ltPair ltStr (ltList Nat.blt))))
    (e.title, e.module, e.imports, e.color, e.context)
    (f.title, f.module, f.imports, f.color, f.context)

/-- Adding an edge to the Python `set` accumulator: a no-op when an equal
edge is already present. -/
def insertEdge (acc : List ImportEdge) (e : ImportEdge) : List ImportEdge :=
  if e ∈ acc then acc else acc ++ [e]

/-- `_is_in_cycle`, made crash-aware: the outer `none` means the
`cycle[idx + 1]` lookup was out of bounds (an uncaught `IndexError` in
Python); `some r?` is the returned cycle (or `None`). -/
def isInCycle (module theImport : MName) : List CycleAndChains → Option (Option CycleAndChains)
  | [] => some none
  | r :: rest =>
    if h : module ∈ r.cycle then
      -- `import_cycle.cycle.index(module)` (ValueError is the `else` branch)
      match r.cycle.get? (pyIndexOf module r.cycle + 1) with
      | none => none
      | some nxt =>
        if nxt = theImport then some (some r) else isInCycle module theImport rest
    else isInCycle module theImport rest

/-- `_is_in_cycle` as the total function `_make_all_edges` relies on.  By
the detector invariant (claim C10) the out-of-bounds case is unreachable
on detector output; it is defaulted to `none` here. -/
def isInCycleD (module theImport : MName) (cycles : List CycleAndChains) :
    Option CycleAndChains :=
  (isInCycle module theImport cycles).getD none

/-- `_make_all_edges`: one edge per adjacency entry, colored red when it
lies on a recorded cycle, collected into a set and sorted. -/
def makeAllEdges (g : Graph) (importCycles : List CycleAndChains) : List ImportEdge :=
  let edges := g.foldl
    (fun acc p => p.2.foldl
      (fun acc mi =>
        insertEdge acc
          { title := "", module := p.1, imports := mi.moduleName,
            color := if (isInCycleD p.1 mi.moduleName importCycles).isNone then "black" else "red",
            context := [] })
      acc)
    []
  insertionSortB (leOf ltEdge) edges

/-- A hexadecimal digit character, as `"%x"` formats it. -/
def hexDigit (n : Nat) : Char :=
  if n < 10 then Char.ofNat (48 + n) else Char.ofNat (87 + n)

/-- `"%02x"` for a byte value. -/
def hexByte (n : Nat) : String :=
  String.mk [hexDigit (n / 16 % 16), hexDigit (n % 16)]

/-- `"#%02x%02x%02x"`. -/
def colorHex (r g b : Nat) : String :=
  "#" ++ hexByte r ++ hexByte g ++ hexByte b

/-- The per-cycle color: three successive draws from the random stream
(`random.randint(50, 200)` values, modelled as an injected stream `rand`
indexed by draw count). -/
def cycleColor (rand : Nat → Nat) (nr : Nat) : String :=
  colorHex (rand (3 * nr)) (rand (3 * nr + 1)) (rand (3 * nr + 2))

/-- The inner loop of `_make_only_cycles_edges`: walk the stored cycle,
emitting one edge per adjacent pair. -/
def onlyCyclesInner (title : String) (color : String) :
    MName → List MName → List ImportEdge → List ImportEdge
  | _, [], acc => acc
  | module, m :: rest, acc =>
    onlyCyclesInner title color m rest
      (insertEdge acc
        { title := title, module := module, imports := m, color := color, context := [] })

/-- The outer loop of `_make_only_cycles_edges` over the enumerated
cycles.  (`import_cycle.cycle[0]` would raise on an empty stored cycle;
that never happens for detector output, and the empty case is skipped
here.) -/
def onlyCyclesOuter (rand : Nat → Nat) :
    Nat → List CycleAndChains → List ImportEdge → List ImportEdge
  | _, [], acc => acc
  | nr, r :: rest, acc =>
    match r.cycle with
    | [] => onlyCyclesOuter rand (nr + 1) rest acc
    | c0 :: ctail =>
      onlyCyclesOuter rand (nr + 1) rest
        (onlyCyclesInner (Nat.repr (nr + 1)) (cycleColor rand nr) c0 ctail acc)

/-- `_make_only_cycles_edges`. -/
def makeOnlyCyclesEdges (importCycles : List CycleAndChains) (rand : Nat → Nat) :
    List ImportEdge :=
  insertionSortB (leOf ltEdge) (onlyCyclesOuter rand 0 importCycles [])

/-! ## The surrounding run (`main`, `_get_return_code`) -/

/-- The `--graph` choices admitted by the argument parser. -/
inductive GraphMode
  | all
  | onlyCycles
  | no
deriving DecidableEq

/-- `_make_edges` (the `NotImplementedError` branch is unreachable because
`argparse` restricts `--graph` to the three choices). -/
def makeEdges (mode : GraphMode) (g : Graph) (importCycles : List CycleAndChains)
    (rand : Nat → Nat) : List ImportEdge :=
  match mode with
  | .all => makeAllEdges g importCycles
  | .onlyCycles => makeOnlyCyclesEdges importCycles rand
  | .no => []

/-- `_get_return_code`: truthy iff any cycle was found. -/
def getReturnCode (importCycles : List CycleAndChains) : Bool :=
  !importCycles.isEmpty

/-- `main`, from the path checks onward.  `projExists`/`projIsDir` model
`project_path.exists()`/`.is_dir()`, `folderExists` models
`folder_path.exists()`; the discovered graph `g` stands for the result of
file discovery, parsing and import resolution; `rand` is the RNG stream.
The returned `Nat` is the process exit status (`bool` return values are
`int` subtypes in Python: `True` is 1, `False` is 0). -/
def mainRun (projExists projIsDir folderExists : Bool) (g : Graph)
    (mode : GraphMode) (rand : Nat → Nat) : Nat :=
  if !projExists || !projIsDir then 1
  else if !folderExists then 1
  else
    let importCycles := cyclesOut g
    if mode = GraphMode.no then cond (getReturnCode importCycles) 1 0
    else if (makeEdges mode g importCycles rand).isEmpty then
      cond (getReturnCode importCycles) 1 0
    else
      -- graph rendering happens here; the return value is the same
      cond (getReturnCode importCycles) 1 0

/-! ## The graph builder (`_get_imports_by_module`) -/

/-- A raw import statement as extracted by `NodeVisitorImports`: either an
`ImportSTMT` (a `Direct` import, with its alias names) or an
`ImportFromSTMT` (module, relative level and alias names), each carrying
its import context. -/
inductive ImportStmtE
  | imp (context : Ctx) (names : List MName)
  | fromImp (context : Ctx) (module? : Option MName) (level : Nat) (names : List String)
deriving DecidableEq

/-- The context recorded on a statement. -/
def ImportStmtE.context : ImportStmtE → Ctx
  | .imp c _ => c
  | .fromImp c _ _ _ => c

/-- `get_imported_module_names`, dispatched on the statement variant. -/
def ImportStmtE.getImportedModuleNames (fs : FS) (mapping : List (String × String))
    (isStd : MName → Bool) (baseModuleName : MName) : ImportStmtE → List MName
  | .imp _ names => importGetNames fs mapping isStd baseModuleName names
  | .fromImp _ module? level names =>
    importFromGetNames fs mapping isStd baseModuleName module? level names

/-- A `NodeVisitorImports` after visiting one file: the file's
project-relative path (as `dirs`/`stem`/`ext`) and the import statements
found in it, in source order. -/
structure Visitor where
  dirs : List String
  stem : String
  ext : String
  stmts : List ImportStmtE
deriving DecidableEq

/-- `_get_imports_by_module`: one adjacency entry per visitor, keyed by the
module name derived from the file path, whose edge list concatenates the
resolved names of each statement in source order, each paired with its
statement's context.  (The Python dict comprehension would let a later
duplicate module name overwrite an earlier one; distinct files yielding
the same module name is excluded as a well-formedness invariant by the
spec, and the association list keeps one entry per visitor.) -/
def getImportsByModule (fs : FS) (mapping : List (String × String))
    (isStd : MName → Bool) (visitors : List Visitor) : Graph :=
  visitors.map fun v =>
    let moduleName := getModuleNameFromPath mapping v.dirs v.stem v.ext
    (moduleName,
      v.stmts.flatMap fun stmt =>
        (stmt.getImportedModuleNames fs mapping isStd moduleName).map
          fun importedModuleName => ⟨importedModuleName, stmt.context⟩)



/-- A strict total order, in `Bool` form. -/
structure IsStrictB (lt : α → α → Bool) : Prop where
  irrefl : ∀ a, lt a a = false
  trans : ∀ a b c, lt a b = true → lt b c = true → lt a c = true
  conn : ∀ a b, lt a b = false → lt b a = false → a = b

/-- `EdgeIn g a b`: the adjacency mapping has key `a` and `b` occurs among
its imported-module targets. -/
def EdgeIn (g : Graph) (a b : MName) : Prop :=
  ∃ l, (a, l) ∈ g ∧ ∃ mi ∈ l, mi.moduleName = b

/-- The invariant of every stored cycle: at least two entries, first equals
last, and consecutive entries are graph edges. -/
def GoodCycle (g : Graph) (c : List MName) : Prop :=
  2 ≤ c.length ∧ c.head? = c.getLast? ∧ List.Chain' (EdgeIn g) c

/-- Every record of the detector state has a good cycle. -/
def GoodState (g : Graph) (st : CycleState) : Prop :=
  ∀ p ∈ st, GoodCycle g p.2.cycle

/-! ## Order facts about the Python comparators

The strict comparators are irreflexive, transitive and connected
(incomparable elements are equal); from these, `leOf lt` is transitive and
total, which is what the sortedness results need. -/

theorem ltChar_strict : IsStrictB ltChar where
  irrefl a := by simp [ltChar]
  trans a b c h1 h2 := by
    simp only [ltChar, decide_eq_true_eq] at h1 h2 ⊢
    omega
  conn a b h1 h2 := by
    simp only [ltChar, decide_eq_false_iff_not, not_lt] at h1 h2
    exact Char.eq_of_val_eq (UInt32.toNat.inj (le_antisymm h2 h1))

theorem ltNat_strict : IsStrictB Nat.blt where
  irrefl a := by rw [← Bool.not_eq_true, Nat.blt_eq]; omega
  trans a b c h1 h2 := by rw [Nat.blt_eq] at h1 h2 ⊢; omega
  conn a b h1 h2 := by
    rw [← Bool.not_eq_true, Nat.blt_eq] at h1 h2
    omega

theorem ltList_cons_iff (lt : α → α → Bool) (a b : α) (as bs : List α) :
    ltList lt (a :: as) (b :: bs) = true ↔
      lt a b = true ∨ (lt a b = false ∧ lt b a = false ∧ ltList lt as bs = true) := by
  simp only [ltList]
  cases hab : lt a b <;> cases hba : lt b a <;> simp

theorem ltList_strict (lt : α → α → Bool) (h : IsStrictB lt) : IsStrictB (ltList lt) where
  irrefl := by
    intro l
    induction l with
    | nil => rfl
    | cons a l ih => simp [ltList, h.irrefl a, ih]
  trans := by
    intro l1
    induction l1 with
    | nil =>
      intro l2 l3 h1 h2
      cases l2 with
      | nil => simp [ltList] at h1
      | cons b bs =>
        cases l3 with
        | nil => simp [ltList] at h2
        | cons c cs => rfl
    | cons a as ih =>
      intro l2 l3 h1 h2
      cases l2 with
      | nil => simp [ltList] at h1
      | cons b bs =>
        cases l3 with
        | nil => simp [ltList] at h2
        | cons c cs =>
          rw [ltList_cons_iff] at h1 h2 ⊢
          rcases h1 with hab | ⟨hab, hba, htail1⟩
          · rcases h2 with hbc | ⟨hbc, hcb, _⟩
            · exact Or.inl (h.trans a b c hab hbc)
            · rcases h.conn b c hbc hcb
              exact Or.inl hab
          · rcases h.conn a b hab hba
            rcases h2 with hac | ⟨hac, hca, htail2⟩
            · exact Or.inl hac
            · exact Or.inr ⟨hac, hca, ih bs cs htail1 htail2⟩
  conn := by
    intro l1
    induction l1 with
    | nil =>
      intro l2 h1 _
      cases l2 with
      | nil => rfl
      | cons b bs => simp [ltList] at h1
    | cons a as ih =>
      intro l2 h1 h2
      cases l2 with
      | nil => simp [ltList] at h2
      | cons b bs =>
        simp only [ltList] at h1 h2
        cases hab : lt a b with
        | true => simp [hab] at h1
        | false =>
          cases hba : lt b a with
          | true => simp [hba] at h2
          | false =>
            rcases h.conn a b hab hba
            simp only [hab, if_false, Bool.false_eq_true] at h1 h2
            rw [ih bs h1 h2]

theorem ltPair_strict (lta : α → α → Bool) (ltb : β → β → Bool)
    (ha : IsStrictB lta) (hb : IsStrictB ltb) : IsStrictB (ltPair lta ltb) where
  irrefl := by
    rintro ⟨a, b⟩
    simp [ltPair, ha.irrefl a, hb.irrefl b]
  trans := by
    rintro ⟨a, x⟩ ⟨b, y⟩ ⟨c, z⟩ h1 h2
    simp only [ltPair] at h1 h2 ⊢
    cases hab : lta a b with
    | true =>
      cases hbc : lta b c with
      | true => simp [ha.trans a b c hab hbc]
      | false =>
        cases hcb : lta c b with
        | true => simp [hbc, hcb] at h2
        | false =>
          rcases ha.conn b c hbc hcb
          simp [hab]
    | false =>
      cases hba : lta b a with
      | true => simp [hab, hba] at h1
      | false =>
        rcases ha.conn a b hab hba
        simp only [hab, hba, if_false, Bool.false_eq_true] at h1 h2 ⊢
        cases hbc : lta a c with
        | true => simp
        | false =>
          cases hcb : lta c a with
          | true => simp [hbc, hcb] at h2
          | false =>
            simp only [hbc, hcb, if_false, Bool.false_eq_true] at h2 ⊢
            exact hb.trans x y z h1 h2
  conn := by
    rintro ⟨a, x⟩ ⟨b, y⟩ h1 h2
    simp only [ltPair] at h1 h2
    cases hab : lta a b with
    | true => simp [hab] at h1
    | false =>
      cases hba : lta b a with
      | true => simp [hba] at h2
      | false =>
        rcases ha.conn a b hab hba
        simp only [hab, if_false, Bool.false_eq_true] at h1 h2
        rw [hb.conn x y h1 h2]

theorem ltStr_strict : IsStrictB ltStr := by
  have h := ltList_strict ltChar ltChar_strict
  constructor
  · intro a
    exact h.irrefl a.data
  · intro a b c h1 h2
    exact h.trans a.data b.data c.data h1 h2
  · intro a b h1 h2
    have hd := h.conn a.data b.data h1 h2
    cases a
    cases b
    exact congrArg String.mk hd

theorem leOf_trans (lt : α → α → Bool) (h : IsStrictB lt) (a b c : α)
    (h1 : leOf lt a b = true) (h2 : leOf lt b c = true) : leOf lt a c = true := by
  simp only [leOf, Bool.not_eq_true', Bool.not_eq_false] at h1 h2 ⊢
  cases hca : lt c a with
  | false => rfl
  | true =>
    cases hab : lt a b with
    | true => rw [h.trans c a b hca hab] at h2; exact h2
    | false =>
      rcases h.conn a b hab h1
      rw [hca] at h2
      exact h2

theorem leOf_total (lt : α → α → Bool) (h : IsStrictB lt) (a b : α) :
    leOf lt a b = true ∨ leOf lt b a = true := by
  simp only [leOf, Bool.not_eq_true', Bool.not_eq_false]
  cases hba : lt b a with
  | false => exact Or.inl rfl
  | true =>
    cases hab : lt a b with
    | false => exact Or.inr rfl
    | true =>
      have := h.trans a b a hab hba
      rw [h.irrefl a] at this
      exact absurd this (by simp)

theorem mem_orderedInsertB (le : α → α → Bool) (a x : α) :
    ∀ l : List α, x ∈ orderedInsertB le a l ↔ x = a ∨ x ∈ l
  | [] => by simp [orderedInsertB]
  | b :: l => by
    by_cases h : le a b = true <;>
      simp [orderedInsertB, h, mem_orderedInsertB le a x l] <;> tauto

theorem mem_insertionSortB (le : α → α → Bool) (x : α) :
    ∀ l : List α, x ∈ insertionSortB le l ↔ x ∈ l
  | [] => Iff.rfl
  | a :: l => by
    simp [insertionSortB, mem_orderedInsertB, mem_insertionSortB le x l]

theorem pairwise_orderedInsertB (le : α → α → Bool)
    (total : ∀ a b, le a b = true ∨ le b a = true)
    (trans : ∀ a b c, le a b = true → le b c = true → le a c = true) (a : α) :
    ∀ l : List α, l.Pairwise (le · · = true) →
      (orderedInsertB le a l).Pairwise (le · · = true)
  | [], _ => by simp [orderedInsertB]
  | b :: l, hp => by
    rcases List.pairwise_cons.mp hp with ⟨hb, hl⟩
    rw [orderedInsertB]
    by_cases h : le a b = true
    · rw [if_pos h]
      refine List.pairwise_cons.mpr ⟨?_, hp⟩
      intro x hx
      rcases List.mem_cons.mp hx with rfl | hx
      · exact h
      · exact trans a b x h (hb x hx)
    · rw [if_neg h]
      refine List.pairwise_cons.mpr ⟨?_, pairwise_orderedInsertB le total trans a l hl⟩
      intro x hx
      rcases (mem_orderedInsertB le a x l).mp hx with h2 | hx
      · subst h2
        rcases total x b with h' | h'
        · exact absurd h' h
        · exact h'
      · exact hb x hx

theorem pairwise_insertionSortB (le : α → α → Bool)
    (total : ∀ a b, le a b = true ∨ le b a = true)
    (trans : ∀ a b c, le a b = true → le b c = true → le a c = true) :
    ∀ l : List α, (insertionSortB le l).Pairwise (le · · = true)
  | [] => List.Pairwise.nil
  | a :: l =>
    pairwise_orderedInsertB le total trans a _ (pairwise_insertionSortB le total trans l)

/-! ## The detector invariant: stored cycles are closed graph paths -/

theorem lookupD_edgeIn (g : Graph) (a : MName) :
    ∀ mi ∈ lookupD g a, EdgeIn g a mi.moduleName := by
  induction g with
  | nil => intro mi h; simp [lookupD] at h
  | cons p rest ih =>
    intro mi h
    rw [lookupD] at h
    by_cases hk : p.1 = a
    · rw [if_pos hk] at h
      exact ⟨p.2, by simp [← hk], mi, h, rfl⟩
    · rw [if_neg hk] at h
      obtain ⟨l, hl, hmi⟩ := ih mi h
      exact ⟨l, List.mem_cons_of_mem p hl, hmi⟩

theorem insertChain_good (g : Graph) (key cycle chain : List MName)
    (hc : GoodCycle g cycle) :
    ∀ st : CycleState, GoodState g st → GoodState g (insertChain st key cycle chain) := by
  intro st
  induction st with
  | nil =>
    intro _ p hp
    rw [insertChain] at hp
    have := List.mem_singleton.mp hp
    subst this
    exact hc
  | cons q rest ih =>
    intro hst p hp
    rw [insertChain] at hp
    by_cases hk : q.1 = key
    · rw [if_pos hk] at hp
      rcases List.mem_cons.mp hp with hp | hp
      · have := hst q (List.mem_cons_self q rest)
        simp [hp]
        simpa using this
      · exact hst p (List.mem_cons_of_mem q hp)
    · rw [if_neg hk] at hp
      rcases List.mem_cons.mp hp with hp | hp
      · exact hst p (hp ▸ List.mem_cons_self q rest)
      · exact ih (fun r hr => hst r (List.mem_cons_of_mem q hr)) p hp

theorem pyIndexOf_append_of_mem (x : MName) (l2 : List MName) :
    ∀ b : List MName, x ∈ b → pyIndexOf x (b ++ l2) = pyIndexOf x b
  | [], hx => by simp at hx
  | a :: b, hx => by
    rw [List.cons_append, pyIndexOf, pyIndexOf]
    by_cases ha : a = x
    · rw [if_pos ha, if_pos ha]
    · rw [if_neg ha, if_neg ha,
        pyIndexOf_append_of_mem x l2 b (by rcases List.mem_cons.mp hx with h | h
                                           · exact absurd h.symm ha
                                           · exact h)]

theorem pyIndexOf_lt_length (x : MName) :
    ∀ l : List MName, x ∈ l → pyIndexOf x l < l.length
  | [], hx => by simp at hx
  | a :: l, hx => by
    rw [pyIndexOf]
    by_cases ha : a = x
    · simp [ha]
    · rw [if_neg ha, List.length_cons]
      have : x ∈ l := by
        rcases List.mem_cons.mp hx with h | h
        · exact absurd h.symm ha
        · exact h
      exact Nat.succ_lt_succ (pyIndexOf_lt_length x l this)

theorem getElem?_pyIndexOf (x : MName) :
    ∀ l : List MName, x ∈ l → l[pyIndexOf x l]? = some x
  | [], hx => by simp at hx
  | a :: l, hx => by
    rw [pyIndexOf]
    by_cases ha : a = x
    · rw [if_pos ha]
      simp [ha]
    · rw [if_neg ha]
      have : x ∈ l := by
        rcases List.mem_cons.mp hx with h | h
        · exact absurd h.symm ha
        · exact h
      simpa using getElem?_pyIndexOf x l this

theorem pyIndexOf_of_head (x : MName) (l : List MName) (h : l.head? = some x) :
    pyIndexOf x l = 0 := by
  cases l with
  | nil => simp at h
  | cons a l =>
    simp only [List.head?_cons, Option.some.injEq] at h
    rw [pyIndexOf, if_pos h]

theorem addCycle_concat (st : CycleState) (b : List MName) (x : MName) :
    addCycle st (b ++ [x]) =
      insertChain st
        (insertionSortB (leOf ltName)
          (((b ++ [x]).drop (pyIndexOf x (b ++ [x]))).dropLast))
        ((b ++ [x]).drop (pyIndexOf x (b ++ [x]))) (b ++ [x]) := by
  unfold addCycle
  rw [List.getLast?_concat]

theorem addCycle_good (g : Graph) (st : CycleState) (b : List MName) (x : MName)
    (hst : GoodState g st) (hx : x ∈ b) (hchain : List.Chain' (EdgeIn g) (b ++ [x])) :
    GoodState g (addCycle st (b ++ [x])) := by
  rw [addCycle_concat]
  have hidx : pyIndexOf x (b ++ [x]) = pyIndexOf x b :=
    pyIndexOf_append_of_mem x [x] b hx
  have hlt : pyIndexOf x b < b.length := pyIndexOf_lt_length x b hx
  refine insertChain_good g _ _ _ ?_ st hst
  constructor
  · rw [hidx, List.length_drop, List.length_append]
    simp only [List.length_cons, List.length_nil]
    omega
  constructor
  · rw [hidx]
    have hlast : ((b ++ [x]).drop (pyIndexOf x b)).getLast? = some x := by
      rw [List.drop_append_of_le_length (Nat.le_of_lt hlt), List.getLast?_concat]
    have hhead : ((b ++ [x]).drop (pyIndexOf x b)).head? = some x := by
      rw [List.head?_eq_getElem?, List.getElem?_drop, Nat.add_zero,
        List.getElem?_append_left hlt, getElem?_pyIndexOf x b hx]
    rw [hlast, hhead]
  · exact hchain.suffix (List.drop_suffix _ _)

theorem detectAux_good (g : Graph) :
    ∀ fuel (base : List MName) (imports : List ImportedModule) (st : CycleState),
      GoodState g st →
      (∀ mi ∈ imports, List.Chain' (EdgeIn g) (base ++ [mi.moduleName])) →
      GoodState g (detectAux g fuel base imports st) := by
  intro fuel
  induction fuel with
  | zero => intro base imports st hst _; exact hst
  | succ fuel ih =>
    intro base imports
    induction imports with
    | nil => intro st hst _; exact hst
    | cons mi rest ihr =>
      intro st hst hpre
      show GoodState g (detectStep g (detectAux g fuel) base (mi :: rest) st)
      rw [detectStep]
      by_cases hmem : mi.moduleName ∈ base
      · rw [if_pos hmem]
        exact addCycle_good g st base mi.moduleName hst hmem
          (hpre mi (List.mem_cons_self mi rest))
      · rw [if_neg hmem]
        have hbase' : List.Chain' (EdgeIn g) (base ++ [mi.moduleName]) :=
          hpre mi (List.mem_cons_self mi rest)
        have hinner : GoodState g
            (detectAux g fuel (base ++ [mi.moduleName]) (lookupD g mi.moduleName) st) := by
          refine ih (base ++ [mi.moduleName]) (lookupD g mi.moduleName) st hst ?_
          intro mj hmj
          rw [List.chain'_append]
          refine ⟨hbase', List.chain'_singleton _, ?_⟩
          intro y hy z hz
          rw [List.getLast?_concat] at hy
          simp only [List.head?_cons, Option.mem_def, Option.some.injEq] at hy hz
          rw [← hy, ← hz]
          exact lookupD_edgeIn g mi.moduleName mj hmj
        exact ihr _ hinner (fun mj hmj => hpre mj (List.mem_cons_of_mem mi hmj))

theorem detectCycles_good (g : Graph) : GoodState g (detectCycles g) := by
  unfold detectCycles
  have main : ∀ l : List (MName × List ImportedModule), (∀ p ∈ l, p ∈ g) →
      ∀ st, GoodState g st →
        GoodState g (l.foldl (fun st p => detectAux g (fuelFor g) [p.1] p.2 st) st) := by
    intro l
    induction l with
    | nil => intro _ st hst; exact hst
    | cons p rest ih =>
      intro hmem st hst
      rw [List.foldl_cons]
      refine ih (fun q hq => hmem q (List.mem_cons_of_mem p hq)) _ ?_
      refine detectAux_good g (fuelFor g) [p.1] p.2 st hst ?_
      intro mi hmi
      rw [List.singleton_append, List.chain'_pair]
      exact ⟨p.2, by simpa using hmem p (List.mem_cons_self p rest), mi, hmi, rfl⟩
  exact main g (fun p hp => hp) [] (by intro p hp; simp at hp)

theorem cyclesOut_good (g : Graph) (r : CycleAndChains) (hr : r ∈ cyclesOut g) :
    GoodCycle g r.cycle := by
  unfold cyclesOut at hr
  rw [mem_insertionSortB] at hr
  obtain ⟨p, hp, hpr⟩ := List.mem_map.mp hr
  exact hpr ▸ detectCycles_good g p hp

/-! ## Derived strictness facts -/

theorem ltName_strict : IsStrictB ltName :=
  ltList_strict ltStr ltStr_strict

theorem ltCycle_strict : IsStrictB (ltList ltName) :=
  ltList_strict ltName ltName_strict

theorem ltEdge_strict : IsStrictB ltEdge := by
  have base : IsStrictB
      (ltPair ltStr (ltPair ltName (ltPair ltName (ltPair ltStr (ltList Nat.blt))))) :=
    ltPair_strict _ _ ltStr_strict
      (ltPair_strict _ _ ltName_strict
        (ltPair_strict _ _ ltName_strict
          (ltPair_strict _ _ ltStr_strict (ltList_strict _ ltNat_strict))))
  constructor
  · intro e
    exact base.irrefl _
  · intro e f g h1 h2
    exact base.trans _ _ _ h1 h2
  · intro e f h1 h2
    have := base.conn _ _ h1 h2
    cases e
    cases f
    simpa using this

/-! ## Claim C6 -/

/-- C6 counterexample: on the graph `b -> [a]`, `a -> [b, c]`, `c -> [a]`
the detector's final list stores the records with cycles
`(a, c, a)` (dedup key `(a, c)`) and `(b, a, b)` (dedup key `(a, b)`), in
that order: the list is ordered by the stored cycle sequences and is *not*
sorted by the records' deduplication keys, since `(a, b) < (a, c)`. -/
theorem c6_counterexample :
    (cyclesOut
        [(["b"], [⟨["a"], []⟩]), (["a"], [⟨["b"], []⟩, ⟨["c"], []⟩]),
         (["c"], [⟨["a"], []⟩])]).map (·.cycle) =
      [[["a"], ["c"], ["a"]], [["b"], ["a"], ["b"]]] ∧
    ¬ (cyclesOut
        [(["b"], [⟨["a"], []⟩]), (["a"], [⟨["b"], []⟩, ⟨["c"], []⟩]),
         (["c"], [⟨["a"], []⟩])]).Pairwise
      (fun r s =>
        leOf (ltList ltName) (insertionSortB (leOf ltName) r.cycle.dropLast)
          (insertionSortB (leOf ltName) s.cycle.dropLast) = true) := by
  constructor
  · decide
  · decide

/-- C6 (amended): the final list of cycle records returned by a detection
run is sorted by each record's *stored cycle sequence* (its
discovery-order rotation), not by the deduplication key. -/
theorem c6_amended_sorted_by_cycle (g : Graph) :
    (cyclesOut g).Pairwise (fun r s => leOf (ltList ltName) r.cycle s.cycle = true) := by
  unfold cyclesOut
  exact pairwise_insertionSortB _
    (fun (r s : CycleAndChains) => leOf_total (ltList ltName) ltCycle_strict r.cycle s.cycle)
    (fun (r s t : CycleAndChains) h1 h2 =>
      leOf_trans (ltList ltName) ltCycle_strict r.cycle s.cycle t.cycle h1 h2)
    _

/-! ## Claim C5 -/

/-- C5: cycle soundness.  Every record produced by a detection run stores a
cycle whose consecutive pairs `(mi, mi+1)` are edges of the import graph:
`mi` is a key of the adjacency mapping and `mi+1` occurs among its
imported-module targets (`EdgeIn`). -/
theorem c5_cycle_soundness (g : Graph) (r : CycleAndChains) (hr : r ∈ cyclesOut g) :
    List.Chain' (EdgeIn g) r.cycle :=
  (cyclesOut_good g r hr).2.2

theorem c5_cycle_soundness_witness :
    ({ cycle := [["a"], ["a"]], chains := [[["a"], ["a"]]] } : CycleAndChains) ∈
        cyclesOut [(["a"], [⟨["a"], []⟩])] ∧
      List.Chain' (EdgeIn [(["a"], [⟨["a"], []⟩])]) [["a"], ["a"]] :=
  ⟨by decide,
   c5_cycle_soundness [(["a"], [⟨["a"], []⟩])]
     { cycle := [["a"], ["a"]], chains := [[["a"], ["a"]]] } (by decide)⟩

/-! ## Claim C10 -/

theorem isInCycle_ne_none (m i : MName) :
    ∀ cs : List CycleAndChains,
      (∀ r ∈ cs, 2 ≤ r.cycle.length ∧ r.cycle.head? = r.cycle.getLast?) →
      isInCycle m i cs ≠ none
  | [], _ => by simp [isInCycle]
  | r :: rest, h => by
    rw [isInCycle]
    by_cases hm : m ∈ r.cycle
    · rw [dif_pos hm]
      obtain ⟨hlen, hhl⟩ := h r (List.mem_cons_self r rest)
      have hidx : pyIndexOf m r.cycle + 1 < r.cycle.length := by
        have hlt := pyIndexOf_lt_length m r.cycle hm
        rcases Nat.lt_or_ge (pyIndexOf m r.cycle + 1) r.cycle.length with h' | h'
        · exact h'
        · exfalso
          have heq : pyIndexOf m r.cycle = r.cycle.length - 1 := by omega
          have hgetlast : r.cycle.getLast? = some m := by
            rw [List.getLast?_eq_getElem?, ← heq]
            exact getElem?_pyIndexOf m r.cycle hm
          have hhead : r.cycle.head? = some m := by rw [hhl, hgetlast]
          have h0 : pyIndexOf m r.cycle = 0 := pyIndexOf_of_head m r.cycle hhead
          omega
      have hsome : r.cycle.get? (pyIndexOf m r.cycle + 1) =
          some (r.cycle[pyIndexOf m r.cycle + 1]) := by
        rw [List.get?_eq_getElem?, List.getElem?_eq_getElem hidx]
      rw [hsome]
      by_cases hnxt : r.cycle[pyIndexOf m r.cycle + 1] = i
      · simp [hnxt]
      · simp only [hnxt, if_false]
        exact isInCycle_ne_none m i rest (fun q hq => h q (List.mem_cons_of_mem r hq))
    · rw [dif_neg hm]
      exact isInCycle_ne_none m i rest (fun q hq => h q (List.mem_cons_of_mem r hq))

/-- C10: every record produced by the detector stores a closed cycle
(first element equals last), and consequently `_is_in_cycle`'s successor
lookup `cycle[idx + 1]` is always in bounds: `isInCycle` never reaches its
out-of-bounds (`IndexError`) outcome on detector output, for any queried
edge. -/
theorem c10_closed_cycles_safe_lookup (g : Graph) (m i : MName) :
    (∀ r ∈ cyclesOut g, r.cycle.head? = r.cycle.getLast?) ∧
      isInCycle m i (cyclesOut g) ≠ none := by
  constructor
  · intro r hr
    exact (cyclesOut_good g r hr).2.1
  · exact isInCycle_ne_none m i (cyclesOut g)
      (fun r hr => ⟨(cyclesOut_good g r hr).1, (cyclesOut_good g r hr).2.1⟩)

theorem c10_closed_cycles_safe_lookup_witness :
    isInCycle ["a"] ["b"] (cyclesOut [(["a"], [⟨["a"], []⟩])]) ≠ none ∧
      (∀ r ∈ cyclesOut [(["a"], [⟨["a"], []⟩])], r.cycle.head? = r.cycle.getLast?) :=
  ⟨(c10_closed_cycles_safe_lookup [(["a"], [⟨["a"], []⟩])] ["a"] ["b"]).2,
   (c10_closed_cycles_safe_lookup [(["a"], [⟨["a"], []⟩])] ["a"] ["b"]).1⟩

/-! ## Claim C1 -/

/-- C1 counterexample: on the graph `a -> [a, b]`, `b -> [a]` the code's
detector records only the node-set `{a}` (the self-cycle), because after
recording the cycle on target `a` the loop *returns* and never processes
`a`'s second outgoing edge `a -> b`; the spec-faithful variant
(`detectStepSpec`, which keeps processing the remaining targets) also
finds the `{a, b}` cycle.  So detecting a cycle on one target *does* skip
the current module's remaining outgoing edges. -/
theorem c1_counterexample :
    (cyclesOut [(["a"], [⟨["a"], []⟩, ⟨["b"], []⟩]), (["b"], [⟨["a"], []⟩])]).length = 1 ∧
      (cyclesOutSpec [(["a"], [⟨["a"], []⟩, ⟨["b"], []⟩]), (["b"], [⟨["a"], []⟩])]).length = 2 ∧
      cyclesOut [(["a"], [⟨["a"], []⟩, ⟨["b"], []⟩]), (["b"], [⟨["a"], []⟩])] ≠
        cyclesOutSpec [(["a"], [⟨["a"], []⟩, ⟨["b"], []⟩]), (["b"], [⟨["a"], []⟩])] := by
  refine ⟨by decide, by decide, by decide⟩

/-- C1 (amended): at each DFS step the tail module's outgoing edges are
processed in order, but on the *first* target already in the current chain
the cycle is recorded and the whole edge loop returns: the result does not
depend on the module's remaining outgoing edges, which are skipped in this
descent (targets before the hit are still recursed into normally). -/
theorem c1_amended_return_skips_rest (g : Graph) (fuel : Nat) (base : List MName)
    (mi : ImportedModule) (rest : List ImportedModule) (st : CycleState)
    (h : mi.moduleName ∈ base) :
    detectAux g (fuel + 1) base (mi :: rest) st = detectAux g (fuel + 1) base [mi] st := by
  show detectStep g (detectAux g fuel) base (mi :: rest) st =
    detectStep g (detectAux g fuel) base [mi] st
  rw [detectStep, detectStep, if_pos h, if_pos h]

theorem c1_amended_return_skips_rest_witness :
    (⟨["a"], []⟩ : ImportedModule).moduleName ∈ [["a"]] ∧
      detectAux [] 1 [["a"]] [⟨["a"], []⟩, ⟨["b"], []⟩] [] =
        detectAux [] 1 [["a"]] [⟨["a"], []⟩] [] :=
  ⟨by decide,
   c1_amended_return_skips_rest [] 0 [["a"]] ⟨["a"], []⟩ [⟨["b"], []⟩] [] (by decide)⟩

/-! ## Claim C2 -/

/-- C2 counterexample: the module name derived from the path
`pkg/__init__.py` is `pkg.__init__`, not `pkg`: the `__init__` leaf is
*not* collapsed into the parent package name (the source itself notes
"pkg/__init__.py are added, too"). -/
theorem c2_counterexample :
    getModuleNameFromPath [] ["pkg"] "__init__" ".py" = ["pkg", "__init__"] ∧
      getModuleNameFromPath [] ["pkg"] "__init__" ".py" ≠ ["pkg"] := by
  refine ⟨by decide, by decide⟩

/-- C2 (amended): the canonical module name strips the file extension but
keeps the final path component verbatim — an `__init__` leaf is not
collapsed.  The extension never influences the result, and with no mapping
the name is exactly the path components including the stem. -/
theorem c2_amended_no_init_collapse (mapping : List (String × String))
    (dirs : List String) (stem ext ext' : String) :
    getModuleNameFromPath mapping dirs stem ext = getModuleNameFromPath mapping dirs stem ext' ∧
      getModuleNameFromPath [] dirs stem ext = dirs ++ [stem] :=
  ⟨rfl, rfl⟩

/-! ## Claim C3 -/

/-- C3 counterexample: `from . import x` (no stated module, level 1) inside
`pkg.sub.mod` is discarded immediately and yields no edges, even though
`pkg/sub/x.py` exists — it is not resolved against the base path
`pkg.sub`. -/
theorem c3_counterexample :
    importFromGetNames ⟨fun p => p = ["pkg", "sub", "x"], fun _ => false⟩ [] (fun _ => false)
        ["pkg", "sub", "mod"] none 1 ["x"] = [] ∧
      ([] : List MName) ≠ [["pkg", "sub", "x"]] := by
  refine ⟨by decide, by decide⟩

/-- C3 (amended): for a relative From-import with a *stated* module `M` and
level `L > 0`, the absolute dotted path is the importing module's name
with its last `L` segments dropped followed by `M`'s segments (and when
that path exists as a source file the statement resolves to exactly that
name); a relative From-import with *no* stated module (`from . import x`)
is discarded immediately and yields no edges. -/
theorem c3_amended_relative_base (fs : FS) (mapping : List (String × String))
    (isStd : MName → Bool) (base M : MName) (level : Nat) (names : List String)
    (hlvl : level ≠ 0) (hstd : isStd M = false)
    (hpy : fs.pyFile (applyMapping mapping (base.take (base.length - level) ++ M)) = true) :
    importFromGetNames fs mapping isStd base (some M) level names =
        [base.take (base.length - level) ++ M] ∧
      importFromGetNames fs mapping isStd base none level names = [] := by
  constructor
  · rw [importFromGetNames]
    rw [if_neg (by simp [hstd])]
    simp only [if_neg hlvl]
    rw [if_pos (by simpa [ModulePathAndName.pyExists, ModulePathAndName.make] using hpy)]
    rfl
  · rfl

theorem c3_amended_relative_base_witness :
    (1 : Nat) ≠ 0 ∧
      (fun (_ : MName) => false) (["pkg", "sub", "x"] : MName) = false ∧
      (⟨fun p => p = ["pkg", "sub", "x"], fun _ => false⟩ : FS).pyFile
        (applyMapping [] ((["pkg", "sub", "mod"] : MName).take 2 ++ ["x"])) = true ∧
      importFromGetNames ⟨fun p => p = ["pkg", "sub", "x"], fun _ => false⟩ [] (fun _ => false)
        ["pkg", "sub", "mod"] (some ["x"]) 1 ["x"] = [["pkg", "sub", "x"]] := by
  refine ⟨by decide, by decide, by decide, ?_⟩
  have h := c3_amended_relative_base ⟨fun p => p = ["pkg", "sub", "x"], fun _ => false⟩ []
    (fun _ => false) ["pkg", "sub", "mod"] ["x"] 1 ["x"] (by decide) (by decide) (by decide)
  exact h.1

/-! ## Claim C4 -/

theorem addUnique_nodup (acc : List MName) (a : MName) (h : acc.Nodup) :
    (addUnique acc a).Nodup := by
  unfold addUnique
  split
  · exact h
  · rename_i ha
    rw [List.nodup_append]
    refine ⟨h, List.nodup_singleton a, ?_⟩
    intro x hx hxa
    rw [List.mem_singleton.mp hxa] at hx
    exact ha hx

theorem importGetNamesAux_nodup (fs : FS) (mapping : List (String × String))
    (isStd : MName → Bool) :
    ∀ (aliases acc : List MName), acc.Nodup →
      (importGetNamesAux fs mapping isStd aliases acc).Nodup
  | [], _, h => h
  | alias_ :: rest, acc, h => by
    rw [importGetNamesAux]
    split
    · exact importGetNamesAux_nodup fs mapping isStd rest acc h
    · dsimp only
      split
      · exact importGetNamesAux_nodup fs mapping isStd rest _ (addUnique_nodup acc _ h)
      · split
        · exact importGetNamesAux_nodup fs mapping isStd rest acc h
        · exact importGetNamesAux_nodup fs mapping isStd rest acc h

theorem importFromPackageAux_nodup (fs : FS) (mapping : List (String × String))
    (packageName : MName) :
    ∀ (names : List String) (acc : List MName), acc.Nodup →
      (importFromPackageAux fs mapping packageName names acc).Nodup
  | [], _, h => h
  | alias_ :: rest, acc, h => by
    rw [importFromPackageAux]
    split
    · exact importFromPackageAux_nodup fs mapping packageName rest _ (addUnique_nodup acc _ h)
    · exact importFromPackageAux_nodup fs mapping packageName rest acc h

/-- C4 counterexample: two distinct `import x` statements in the same
module (with different contexts) each contribute an entry to the module's
edge list: duplicates are *not* collapsed across statements, and the
second statement's context is kept on its own entry. -/
theorem c4_counterexample :
    getImportsByModule ⟨fun p => p = ["x"], fun _ => false⟩ [] (fun _ => false)
        [⟨[], "m", ".py", [.imp [0] [["x"]], .imp [1] [["x"]]]⟩] =
      [(["m"], [⟨["x"], [0]⟩, ⟨["x"], [1]⟩])] ∧
    [(⟨["x"], [0]⟩ : ImportedModule), ⟨["x"], [1]⟩] ≠ [⟨["x"], [0]⟩] := by
  refine ⟨by decide, by decide⟩

theorem importFromResolved_nodup (fs : FS) (mapping : List (String × String))
    (names : List String) (mn : MName) :
    (if (ModulePathAndName.make mapping mn).pyExists fs = true then
        [(ModulePathAndName.make mapping mn).name]
      else if (ModulePathAndName.make mapping mn).initExists fs = true then []
      else if fs.dir (ModulePathAndName.make mapping mn).path = true then
        importFromPackageAux fs mapping (ModulePathAndName.make mapping mn).name names []
      else []).Nodup := by
  split
  · exact List.nodup_singleton _
  · split
    · exact List.nodup_nil
    · split
      · exact importFromPackageAux_nodup fs mapping _ names [] List.nodup_nil
      · exact List.nodup_nil

/-- C4 (amended): duplicate targets are collapsed (first occurrence wins,
keyed by the target module name alone) only *within a single import
statement's* resolution — the name list each statement contributes has no
duplicates; across distinct statements of the same module duplicates are
retained as separate entries, each with its own statement's context. -/
theorem c4_amended_per_statement_dedup (fs : FS) (mapping : List (String × String))
    (isStd : MName → Bool) (base : MName) (stmt : ImportStmtE) :
    (stmt.getImportedModuleNames fs mapping isStd base).Nodup := by
  cases stmt with
  | imp ctx names =>
    exact importGetNamesAux_nodup fs mapping isStd names [] List.nodup_nil
  | fromImp ctx module? level names =>
    rw [ImportStmtE.getImportedModuleNames, importFromGetNames.eq_def]
    cases module? with
    | none => exact List.nodup_nil
    | some M =>
      dsimp only
      split
      · exact List.nodup_nil
      · exact importFromResolved_nodup fs mapping names _

/-! ## Claim C7 -/

/-- C7: package-directory From-imports resolve each name independently:
when the absolute base path is not itself a source file, not a
package-init, but is a directory, `from pkg import x, y` with only
`pkg/x.py` existing yields exactly the one edge `pkg.x`, with `y` dropped
individually (it is only logged). -/
theorem c7_package_name_independent (fs : FS) (mapping : List (String × String))
    (isStd : MName → Bool) (base M abs : MName) (level : Nat) (x y : String)
    (habs : abs = if level = 0 then M else base.take (base.length - level) ++ M)
    (hstd : isStd M = false)
    (hpy : fs.pyFile (applyMapping mapping abs) = false)
    (hinit : fs.pyFile (applyMapping mapping abs ++ ["__init__"]) = false)
    (hdir : fs.dir (applyMapping mapping abs) = true)
    (hx : fs.pyFile (applyMapping mapping (abs ++ [x])) = true)
    (hy : fs.pyFile (applyMapping mapping (abs ++ [y])) = false) :
    importFromGetNames fs mapping isStd base (some M) level [x, y] = [abs ++ [x]] := by
  subst habs
  simp only [importFromGetNames, ModulePathAndName.make, ModulePathAndName.pyExists,
    ModulePathAndName.initExists, importFromPackageAux, addUnique, hstd, hpy, hinit, hdir,
    hx, hy, Bool.false_eq_true, if_false, Bool.and_false, List.not_mem_nil, List.nil_append]
  simp

theorem c7_package_name_independent_witness :
    importFromGetNames ⟨fun p => p = ["pkg", "x"], fun p => p = ["pkg"]⟩ [] (fun _ => false)
        ["m"] (some ["pkg"]) 0 ["x", "y"] = [["pkg", "x"]] := by
  have h := c7_package_name_independent ⟨fun p => p = ["pkg", "x"], fun p => p = ["pkg"]⟩ []
    (fun _ => false) ["m"] ["pkg"] ["pkg"] 0 "x" "y" (by decide) (by decide) (by decide)
    (by decide) (by decide) (by decide) (by decide)
  exact h

/-! ## Claim C8 -/

/-- C8 counterexample: with the same graph and cycle set but different
random streams, `_make_only_cycles_edges` produces different edge lists
(the colors differ): the rendered edge list is not a function of the
graph and cycle set alone. -/
theorem c8_counterexample :
    makeOnlyCyclesEdges [{ cycle := [["a"], ["b"], ["a"]], chains := [] }] (fun _ => 50) ≠
      makeOnlyCyclesEdges [{ cycle := [["a"], ["b"], ["a"]], chains := [] }] (fun _ => 60) := by
  decide

/-- C8 (amended): both rendering modes emit their edge list sorted by the
edge tuple order, and the all-edges mode (whose colors are the fixed
`black`/`red`) is a deterministic function of the graph and cycle set; the
only-cycles mode additionally depends on the random color stream, so for a
fixed stream it is deterministic but across streams only the sorted order
and the color-free content are preserved, not the colors. -/
theorem c8_amended_sorted_edges (g : Graph) (importCycles : List CycleAndChains)
    (rand : Nat → Nat) :
    (makeAllEdges g importCycles).Pairwise (fun e f => leOf ltEdge e f = true) ∧
      (makeOnlyCyclesEdges importCycles rand).Pairwise (fun e f => leOf ltEdge e f = true) := by
  constructor
  · exact pairwise_insertionSortB _ (leOf_total ltEdge ltEdge_strict)
      (leOf_trans ltEdge ltEdge_strict) _
  · exact pairwise_insertionSortB _ (leOf_total ltEdge ltEdge_strict)
      (leOf_trans ltEdge ltEdge_strict) _

/-! ## Claim C9 -/

/-- C9: the run exits non-zero when the project path does not exist or the
target folder path does not exist (aborting before analysis); otherwise
the exit status is truthy (non-zero) exactly when at least one cycle was
found, and zero when none were. -/
theorem c9_exit_status (pe pd fe : Bool) (g : Graph) (mode : GraphMode) (rand : Nat → Nat) :
    (pe = false → mainRun pe pd fe g mode rand ≠ 0) ∧
      (fe = false → mainRun pe pd fe g mode rand ≠ 0) ∧
      (pe = true → pd = true → fe = true →
        (mainRun pe pd fe g mode rand ≠ 0 ↔ cyclesOut g ≠ [])) := by
  refine ⟨?_, ?_, ?_⟩
  · rintro rfl
    simp [mainRun]
  · rintro rfl
    cases pe <;> cases pd <;> simp [mainRun]
  · rintro rfl rfl rfl
    have hrun : mainRun true true true g mode rand = cond (getReturnCode (cyclesOut g)) 1 0 := by
      rw [mainRun]
      simp only [Bool.not_true, Bool.or_self, Bool.false_eq_true, if_false]
      split_ifs <;> rfl
    rw [hrun]
    cases hc : cyclesOut g with
    | nil => simp [getReturnCode]
    | cons r rest => simp [getReturnCode]

theorem c9_exit_status_witness :
    mainRun false true true [] GraphMode.no (fun _ => 0) ≠ 0 ∧
      mainRun true true false [] GraphMode.no (fun _ => 0) ≠ 0 ∧
      (mainRun true true true [] GraphMode.no (fun _ => 0) ≠ 0 ↔ cyclesOut ([] : Graph) ≠ []) :=
  ⟨(c9_exit_status false true true [] GraphMode.no (fun _ => 0)).1 rfl,
   (c9_exit_status true true false [] GraphMode.no (fun _ => 0)).2.1 rfl,
   (c9_exit_status true true true [] GraphMode.no (fun _ => 0)).2.2 rfl rfl rfl⟩
